import Mathlib

/-!
Verification of the Analogue 3D updater tool (`analogue3d_firmware_updater.py`)
against its specification.

The Python script is shallowly embedded: pure string manipulations become
functions on `String`/`List Char`, the filesystem tree seen by `os.walk`,
`os.listdir` and `zipfile` becomes an inductive tree type, and the effectful
operations (`create_backup`, `install_firmware`, `restore_backup`,
`get_potential_sd_cards`, `get_latest_firmware_url`) become pure functions of
the relevant inputs (directory listings, parsed HTML anchors, mounted-partition
records, operator input).  Host-level behaviour (HTTP transport, the actual
byte-level zip container, console printing) is outside the embedding; the
functions model exactly the decision logic and the data produced by the script.
-/

/- ===================== String utilities (Python semantics) ===================== -/

/-- Python `s.split(sep)` for a single-character separator, on char lists:
splits at every occurrence of `c`, keeping empty pieces, and never returns an
empty list (`"".split(c) == [""]`). -/
def splitChar (c : Char) : List Char → List (List Char)
  | [] => [[]]
  | x :: xs =>
    match splitChar c xs with
    | [] => [[x]]
    | y :: ys => if x = c then [] :: y :: ys else (x :: y) :: ys

/-- Python `s.split(c)[-1]`: the last piece of a single-character split. -/
def pySplitLast (c : Char) (s : String) : String :=
  String.mk ((splitChar c s.data).getLastD [])

/-- Python `s.split(c)[0]`: the first piece of a single-character split. -/
def pySplitHead (c : Char) (s : String) : String :=
  String.mk ((splitChar c s.data).headD [])

/-- Python substring containment `needle in hay` (`True` for an empty needle). -/
def strContainsSub (hay needle : String) : Bool :=
  go needle.data hay.data
where
  go (needle : List Char) : List Char → Bool
    | [] => needle.isEmpty
    | x :: xs => needle.isPrefixOf (x :: xs) || go needle xs

/-- Python `s.startswith(pre)`. -/
def pyStartswith (s pre : String) : Bool :=
  pre.data.isPrefixOf s.data

/-- Python `s.endswith(suf)`. -/
def pyEndswith (s suf : String) : Bool :=
  suf.data.isSuffixOf s.data

/-- Python `s.lower()`, modelled per-character (adequate for the ASCII names the
script compares). -/
def pyLower (s : String) : String :=
  String.mk (s.data.map Char.toLower)

/-- Python `s.strip()` with no argument: removes leading and trailing
whitespace. -/
def pyStrip (s : String) : String :=
  String.mk (((s.data.dropWhile Char.isWhitespace).reverse.dropWhile
    Char.isWhitespace).reverse)

/-- Boolean string-prefix test, by characters. -/
def strIsPrefixB (a b : String) : Bool :=
  a.data.isPrefixOf b.data

/- ===================== Remote Resource Locator (source lines 25-46) ===================== -/

/-- The fixed firmware support-page URL (source line 21). -/
def FIRMWARE_PAGE : String := "https://www.analogue.co/support/3d/firmware/latest"

/-- Leading URI scheme of `u` (letters/digits/`+`/`-`/`.` before a `:`), if any.
Modelled from the Python standard library's `urllib.parse` scheme detection. -/
def schemeOf (u : String) : Option String :=
  let pre := u.data.takeWhile (fun c => c ≠ ':')
  if pre.length < u.data.length ∧ ¬pre.isEmpty ∧
      pre.all (fun c => c.isAlphanum || c = '+' || c = '-' || c = '.') ∧
      (pre.headD ' ').isAlpha
  then some (String.mk pre) else none

/-- Drop the final `/`-segment of a path, keeping the trailing slash
(`"a/b/c" ↦ "a/b/"`, no slash ↦ `""`). -/
def dropLastSeg (p : List Char) : List Char :=
  (p.reverse.dropWhile (fun c => c ≠ '/')).reverse

/-- Modelled from the Python standard library: `urllib.parse.urljoin`,
restricted to the reference shapes relevant to resolving the firmware link
against the fixed absolute page URL: absolute references, scheme-relative
(`//…`), root-relative (`/…`), and plain relative references (resolved against
the base path with its final segment dropped; dot-segment normalisation is not
modelled). -/
def urljoin (base rel : String) : String :=
  if rel = "" then base
  else if (schemeOf rel).isSome then rel
  else
    let bd := base.data
    let scheme := bd.takeWhile (fun c => c ≠ ':')
    let afterScheme := bd.drop (scheme.length + 1)
    if rel.data.take 2 = ['/', '/'] then
      String.mk (scheme ++ [':'] ++ rel.data)
    else
      let hasNet := afterScheme.take 2 = ['/', '/']
      let netloc :=
        if hasNet then '/' :: '/' :: (afterScheme.drop 2).takeWhile (fun c => c ≠ '/')
        else []
      let path :=
        if hasNet then (afterScheme.drop 2).dropWhile (fun c => c ≠ '/')
        else afterScheme
      if rel.data.take 1 = ['/'] then
        String.mk (scheme ++ [':'] ++ netloc ++ rel.data)
      else
        String.mk (scheme ++ [':'] ++ netloc ++ dropLastSeg path ++ rel.data)

/-- An HTML anchor as produced by `soup.find_all("a", href=True)`: an element
that carries an `href` attribute, together with its visible text. -/
structure Anchor where
  href : String
  text : String

/-- The anchor test on source line 34:
`a.text and "Download [" in a.text and "MB" in a.text`. -/
def anchorMatches (a : Anchor) : Bool :=
  !a.text.data.isEmpty && strContainsSub a.text "Download [" &&
    strContainsSub a.text "MB"

/-- Firmware filename derivation on source line 44:
`download_url.split("/")[-1]` (note: no query-string stripping). -/
def locatorFilename (url : String) : String :=
  pySplitLast '/' url

/-- Local filename derivation on source line 49 (in `download_file`):
`url.split("/")[-1].split("?")[0]`. -/
def fetcherFilename (url : String) : String :=
  pySplitHead '?' (pySplitLast '/' url)

/-- Source lines 25-46, `get_latest_firmware_url`, as a function of the parsed
anchors of the fetched page: scans the anchors in document order for the first
one whose text matches, resolves its href against `FIRMWARE_PAGE` and derives
the filename; returns `none` (Python `(None, None)`) when no anchor matches. -/
def get_latest_firmware_url (anchors : List Anchor) : Option (String × String) :=
  match anchors.find? anchorMatches with
  | none => none
  | some a =>
    let url := urljoin FIRMWARE_PAGE a.href
    some (url, locatorFilename url)

/-- Modelled from the spec: the derived filename is "the final `/`-delimited
segment of the URL with any `?`-suffixed query string removed" (spec §8). -/
def specDerivedFilename (url : String) : String :=
  String.mk (((url.data.reverse.takeWhile (fun c => c ≠ '/')).reverse).takeWhile
    (fun c => c ≠ '?'))

/-- Modelled from the spec: "the final `/`-delimited segment of the resolved
URL" with no query stripping (spec §4.1). -/
def specFinalSegment (url : String) : String :=
  String.mk ((url.data.reverse.takeWhile (fun c => c ≠ '/')).reverse)

/-- The anchor-selection predicate exactly as the claim words it: visible text
contains both literal substrings `"Download ["` and `"MB"`. -/
def claimAnchorMatches (a : Anchor) : Bool :=
  strContainsSub a.text "Download [" && strContainsSub a.text "MB"

/- ===================== Volume Locator (source lines 63-85) ===================== -/

/-- One record of `psutil.disk_partitions()` together with the host answers the
script queries about it: `writable` is the result of `os.access(mount, W_OK)`
and `freeGB` the result of `shutil.disk_usage(mount).free // 2**30` (`none`
when that call raises). The model fixes the POSIX path separator `'/'`. -/
structure DiskPartition where
  mountpoint : String
  opts : String
  fstype : String
  writable : Bool
  freeGB : Option Nat

/-- Source line 72: `"removable" in part.opts.lower() or "cdrom" not in part.opts.lower()`. -/
def is_removable (p : DiskPartition) : Bool :=
  strContainsSub (pyLower p.opts) "removable" || !strContainsSub (pyLower p.opts) "cdrom"

/-- Source line 73: `part.fstype.lower() in ["fat", "fat32", "exfat", "vfat", "ntfs"]`. -/
def is_sd_like (p : DiskPartition) : Bool :=
  (["fat", "fat32", "exfat", "vfat", "ntfs"] : List String).contains (pyLower p.fstype)

/-- Source line 74: `mount.startswith(("/media/", "/Volumes/", "/mnt/"))`. -/
def is_external_path (p : DiskPartition) : Bool :=
  pyStartswith p.mountpoint "/media/" || pyStartswith p.mountpoint "/Volumes/" ||
    pyStartswith p.mountpoint "/mnt/"

/-- The whole filter of source lines 69-76: writable (line 69 `continue`
otherwise) and removable-looking or SD-like or externally mounted (line 76). -/
def sdCandidateRule (p : DiskPartition) : Bool :=
  p.writable && (is_removable p || is_sd_like p || is_external_path p)

/-- Source line 77: `mount.rstrip(os.sep) + os.sep` with the POSIX separator. -/
def displayPath (p : DiskPartition) : String :=
  String.mk ((p.mountpoint.data.reverse.dropWhile (fun c => c = '/')).reverse ++ ['/'])

/-- One iteration of the loop body of source lines 66-83 applied to the
accumulated candidate list. -/
def sdCardStep (acc : List (String × Nat)) (p : DiskPartition) : List (String × Nat) :=
  if sdCandidateRule p then
    if (acc.map Prod.fst).contains (displayPath p) then acc
    else acc ++ [(displayPath p, p.freeGB.getD 0)]
  else acc

/-- Source lines 63-85, `get_potential_sd_cards`: filters the mounted
partitions and collects `(display_path, free_gb)` pairs, suppressing duplicate
display paths (first occurrence wins). -/
def get_potential_sd_cards (parts : List DiskPartition) : List (String × Nat) :=
  parts.foldl sdCardStep []

/- ===================== Filesystem trees and archive entries ===================== -/

/-- A filesystem node: a regular file with its contents, or a directory with
its children in directory-listing (`os.listdir`) order. -/
inductive FSTree where
  | file (content : String) : FSTree
  | dir (children : List (String × FSTree)) : FSTree

/-- Whether a node is a directory (`os.path.isdir`). -/
def FSTree.isDir : FSTree → Bool
  | .file _ => false
  | .dir _ => true

/-- A plausible filesystem entry name: nonempty and free of the path
separator. Real directory listings only produce such names. -/
def validEntryName (n : String) : Bool :=
  !n.data.isEmpty && !n.data.contains '/'

mutual

/-- Well-formedness of a tree: every directory's children carry valid,
pairwise-distinct names. Every tree an operating system hands to the script
satisfies this. -/
def wfTree : FSTree → Bool
  | .file _ => true
  | .dir cs => wfChildren cs

/-- Well-formedness of a child list (see `wfTree`). -/
def wfChildren : List (String × FSTree) → Bool
  | [] => true
  | (n, t) :: rest =>
    validEntryName n && !(rest.any fun c => c.1 == n) && wfTree t && wfChildren rest

end

/-- Look up the node at a relative path below a given node, following
child names segment by segment. -/
def lookupIn : FSTree → List String → Option FSTree
  | t, [] => some t
  | .file _, _ :: _ => none
  | .dir cs, n :: p =>
    match cs.find? (fun c => c.1 == n) with
    | none => none
    | some c => lookupIn c.2 p

/-- Join path segments with forward slashes, as the script's
`os.path.relpath(...).replace(os.sep, '/')` produces. -/
def joinSlash : List String → String
  | [] => ""
  | [s] => s
  | s :: rest => s ++ "/" ++ joinSlash rest

/-- One member of a backup archive: its path segments relative to the volume
root, whether it is a directory-marker entry (arcname suffixed `/`, written
with `zipf.writestr(..., b'')`), and its payload. -/
structure ZipEntry where
  segs : List String
  isDirEntry : Bool
  payload : String
deriving DecidableEq

/-- The name of the entry inside the archive: forward-slash joined segments,
suffixed with `/` for directory markers. -/
def ZipEntry.arcname (e : ZipEntry) : String :=
  joinSlash e.segs ++ (if e.isDirEntry then "/" else "")

/-- The entries contributed by one level of the `os.walk` loop body (source
lines 192-204): a zero-length marker for every truly empty subdirectory
(line 196: `if not os.listdir(subdir_path)`), then a file entry for every
file, both in listing order. -/
def levelEntries (p : List String) (cs : List (String × FSTree)) : List ZipEntry :=
  (cs.filterMap fun c =>
    match c.2 with
    | .dir [] => some ⟨p ++ [c.1], true, ""⟩
    | _ => none) ++
  (cs.filterMap fun c =>
    match c.2 with
    | .file content => some ⟨p ++ [c.1], false, content⟩
    | _ => none)

mutual

/-- The archive entries produced by running the `os.walk` loop of
`create_backup` (source lines 192-204) over the subtree at path `p`: the
current level's entries followed by the recursive walk of each subdirectory in
listing order (top-down traversal, as `os.walk` yields it). -/
def walkDir (p : List String) : FSTree → List ZipEntry
  | .file _ => []
  | .dir cs => levelEntries p cs ++ walkKids p cs

/-- Walks each child of a directory in order (files contribute nothing, since
`os.walk` only descends into directories). -/
def walkKids (p : List String) : List (String × FSTree) → List ZipEntry
  | [] => []
  | (n, t) :: rest => walkDir (p ++ [n]) t ++ walkKids p rest

end

/-- Source lines 172-177: the top-level entries of the volume root that are
directories and whose lowercased name is `library` or `settings`, in listing
order and with their exact on-disk casing. -/
def foldersToBackup (vol : List (String × FSTree)) : List (String × FSTree) :=
  vol.filter fun c =>
    c.2.isDir && (pyLower c.1 == "library" || pyLower c.1 == "settings")

/-- Source lines 184-204, `create_backup`, as the list of archive entries it
writes, in order: for each qualifying top-level folder, an explicit directory
marker for the folder itself (lines 189-190) followed by the walk of its
contents. The input is the volume root's child list. -/
def create_backup (vol : List (String × FSTree)) : List ZipEntry :=
  (foldersToBackup vol).flatMap fun c => ⟨[c.1], true, ""⟩ :: walkDir [c.1] c.2

/- ===================== Installer (source lines 119-145) ===================== -/

/-- The stale-firmware test on source line 134:
`entry.startswith("a3d_os_") and entry.endswith(".bin") and entry != fw_filename`. -/
def staleName (fw entry : String) : Bool :=
  pyStartswith entry "a3d_os_" && pyEndswith entry ".bin" && !(entry == fw)

/-- The firmware naming convention the claims refer to: a top-level name
matching the glob `a3d_os_*.bin`. -/
def fwNamePattern (entry : String) : Bool :=
  pyStartswith entry "a3d_os_" && pyEndswith entry ".bin"

/-- Source line 129: `shutil.copy(local_fw_path, dest_path)` on the volume
root's child list. Overwrites an existing file of the firmware's name, appends
a new child otherwise, and fails (Python raises) if a directory of that name
is in the way. -/
def copyToRoot (root : List (String × FSTree)) (fw content : String) :
    Option (List (String × FSTree)) :=
  match root.find? (fun c => c.1 == fw) with
  | some (_, .dir _) => none
  | some (_, .file _) =>
    some (root.map fun c => if c.1 == fw then (fw, .file content) else c)
  | none => some (root ++ [(fw, .file content)])

/-- Source lines 119-145, `install_firmware`, given the resolved firmware
filename and payload: copies the firmware to the volume root, then scans the
top-level listing (line 133: `os.listdir(target_root)`, a snapshot taken after
the copy) and deletes every stale-named entry whose deletion succeeds;
`delOk entry` tells whether the host lets `os.remove` succeed on that entry
(line 140's bare `except` swallows the failure and keeps the entry). Returns
the new top-level child list and the removed-count the script reports. -/
def install_firmware (root : List (String × FSTree)) (fw content : String)
    (delOk : String → Bool) : Option (List (String × FSTree) × Nat) :=
  match copyToRoot root fw content with
  | none => none
  | some root₁ =>
    some (root₁.filter (fun c => !(staleName fw c.1 && delOk c.1)),
          (root₁.filter (fun c => staleName fw c.1 && delOk c.1)).length)

/- ===================== Restorer (source lines 209-245) ===================== -/

/-- Code-point lexicographic comparison of char lists: how Python compares
strings with `<=`. -/
def lexLe : List Char → List Char → Bool
  | [], _ => true
  | _ :: _, [] => false
  | a :: as, b :: bs => if a < b then true else if b < a then false else lexLe as bs

/-- Python string comparison `a <= b` (code-point lexicographic). -/
def strLe (a b : String) : Bool :=
  lexLe a.data b.data

instance decStrGe : DecidableRel (fun a b : String => strLe b a = true) :=
  fun _ _ => instDecidableEqBool _ _

/-- The archive-name filter on source lines 220-221:
`f.startswith("analogue3d_backup_") and f.endswith(".zip")`. -/
def backupNameMatches (f : String) : Bool :=
  pyStartswith f "analogue3d_backup_" && pyEndswith f ".zip"

/-- Source lines 220-221: the filtered backup-directory listing sorted
descending (`sorted(..., reverse=True)`, Python string order). -/
def list_backups (dirListing : List String) : List String :=
  List.insertionSort (fun a b => strLe b a = true) (dirListing.filter backupNameMatches)

/-- Python `l[i]` with its negative-index convention, `none` when the index
raises `IndexError`. -/
def pyIndex (l : List α) (i : Int) : Option α :=
  if 0 ≤ i then l[i.toNat]?
  else if (-i).toNat ≤ l.length then l[l.length - (-i).toNat]? else none

/-- Source lines 209-245, `restore_backup`, as the sequence of archive members
it extracts (each member extracted is at least one filesystem write; an empty
result means the function performed zero filesystem writes). Inputs: the
backup directory's listing (empty also covers a missing directory, line 215),
the archive contents addressed by filename, the operator's selection
(`int(choice)` already parsed, `none` when parsing raised, line 228), and the
raw confirmation input (stripped on line 236 before the `!= "YES"` test). -/
def restore_backup (dirListing : List String) (archives : String → List ZipEntry)
    (choice : Option Int) (confirm : String) : List ZipEntry :=
  if dirListing.isEmpty then []
  else
    match choice with
    | none => []
    | some c =>
      match pyIndex (list_backups dirListing) (c - 1) with
      | none => []
      | some sel => if pyStrip confirm = "YES" then archives sel else []

/- ===================== Extraction and original-tree views (for C1/C2/C10) ===================== -/

/-- The node of the original volume that the backup covers at path `p`: the
path must start at one of the backed-up top-level folders. -/
def backupLookup (vol : List (String × FSTree)) : List String → Option FSTree
  | [] => none
  | f :: rest =>
    match (foldersToBackup vol).find? (fun c => c.1 == f) with
    | none => none
    | some c => lookupIn c.2 rest

/-- Contents of the file the original volume's backed-up region holds at path
`p`, if any. -/
def origFileAt (vol : List (String × FSTree)) (p : List String) : Option String :=
  match backupLookup vol p with
  | some (.file c) => some c
  | _ => none

/-- Whether the original volume's backed-up region has a directory at path `p`. -/
def origDirAt (vol : List (String × FSTree)) (p : List String) : Bool :=
  match backupLookup vol p with
  | some (.dir _) => true
  | _ => false

/-- Contents of the file that `zipf.extractall` into an empty target leaves at
path `p`: the payload of the last file member whose path is `p` (later members
overwrite earlier ones), if any. -/
def extractedFileAt (entries : List ZipEntry) (p : List String) : Option String :=
  ((entries.filter fun e => !e.isDirEntry && e.segs == p).getLast?).map ZipEntry.payload

/-- Whether `zipf.extractall` into an empty target creates a directory at path
`p`: extraction of a directory member creates it and every ancestor, and
extraction of a file member creates every proper ancestor of the file. -/
def extractedDirAt (entries : List ZipEntry) (p : List String) : Bool :=
  !p.isEmpty && entries.any fun e =>
    (e.isDirEntry && p.isPrefixOf e.segs) ||
    (!e.isDirEntry && p.isPrefixOf e.segs && !(p == e.segs))

/-- The property named by claim C2, in its own words: a directory containing
no files and no non-empty subdirectories. -/
def noFilesNoNonemptySubdirs : FSTree → Bool
  | .file _ => false
  | .dir cs => cs.all fun c =>
      match c.2 with
      | .file _ => false
      | .dir ds => ds.isEmpty

/-- What it means for `e` to be the archive entry that the walk of the tree
`t` (mounted at path `p`) produces for the relative path `rest` below `t`:
a zero-payload directory marker when the node there is a truly empty
directory, or a file entry carrying the file's contents. -/
def entryFor (t : FSTree) (p : List String) (e : ZipEntry) (rest : List String) : Prop :=
  e.segs = p ++ rest ∧
  ((e.isDirEntry = true ∧ e.payload = "" ∧ lookupIn t rest = some (.dir [])) ∨
   (e.isDirEntry = false ∧ lookupIn t rest = some (.file e.payload)))

/-- Concrete volume for the C2 counterexample: `Library/A` contains only the
empty directory `B`, so it holds no files and no non-empty subdirectories. -/
def c2Vol : List (String × FSTree) :=
  [("Library", .dir [("A", .dir [("B", .dir [])])])]

/-- Concrete volume exercising a mix of non-empty directories, empty
directories and files, used to witness the round-trip theorems. -/
def exVol : List (String × FSTree) :=
  [("Library", .dir [("N64", .dir [("Images", .dir [("labels.db", .file "DB")])]),
                     ("Empty", .dir [])]),
   ("Settings", .dir [("Global", .dir [])]),
   ("other", .file "x")]

/-- Concrete volume root holding two stale firmware images, used to witness
the installer theorems. -/
def exRoot : List (String × FSTree) :=
  [("a3d_os_100.bin", .file "OLD0"), ("a3d_os_101.bin", .file "OLD1")]

/- ===================== Helper lemmas: strings and splitting ===================== -/

theorem takeWhile_append_of_exists_false {α} {p : α → Bool} {l l₂ : List α}
    (h : ∃ a ∈ l, p a = false) : (l ++ l₂).takeWhile p = l.takeWhile p := by
  induction l with
  | nil => simp at h
  | cons x xs ih =>
    by_cases hx : p x
    · obtain ⟨a, ha, hpa⟩ := h
      have hxs : ∃ a ∈ xs, p a = false := by
        rcases List.mem_cons.mp ha with h1 | h1
        · subst h1; rw [hx] at hpa; cases hpa
        · exact ⟨a, h1, hpa⟩
      simp [List.takeWhile_cons, hx, ih hxs]
    · simp [List.takeWhile_cons, hx]

theorem takeWhile_append_singleton_false {α} {p : α → Bool} {l : List α} {a : α}
    (h : p a = false) : (l ++ [a]).takeWhile p = l.takeWhile p := by
  induction l with
  | nil => simp [List.takeWhile_cons, h]
  | cons x xs ih => by_cases hx : p x <;> simp [List.takeWhile_cons, hx, ih]

theorem splitChar_ne_nil (c : Char) (l : List Char) : splitChar c l ≠ [] := by
  cases l with
  | nil => simp [splitChar]
  | cons x xs =>
    simp only [splitChar]
    rcases h : splitChar c xs with _ | ⟨y, ys⟩
    · simp
    · by_cases hx : x = c <;> simp [hx]

theorem splitChar_of_not_mem {c : Char} {l : List Char} (h : c ∉ l) :
    splitChar c l = [l] := by
  induction l with
  | nil => rfl
  | cons x xs ih =>
    have hx : x ≠ c := fun he => h (he ▸ List.mem_cons_self x xs)
    have hxs : c ∉ xs := fun hm => h (List.mem_cons_of_mem x hm)
    simp only [splitChar, ih hxs]
    simp [hx]

theorem splitChar_singleton {c : Char} {l y : List Char}
    (h : splitChar c l = [y]) : y = l ∧ c ∉ l := by
  induction l generalizing y with
  | nil => simp [splitChar] at h; simp [h]
  | cons x xs ih =>
    simp only [splitChar] at h
    rcases hs : splitChar c xs with _ | ⟨y', ys'⟩
    · exact absurd hs (splitChar_ne_nil c xs)
    · rw [hs] at h
      by_cases hx : x = c
      · simp [hx] at h
      · simp only [if_neg hx] at h
        have h1 : x :: y' = y ∧ ys' = [] := by
          constructor
          · exact (List.cons_eq_cons.mp h).1
          · exact (List.cons_eq_cons.mp h).2
        obtain ⟨he, hys⟩ := h1
        subst hys
        obtain ⟨hy', hmem⟩ := ih hs
        subst hy'
        refine ⟨he.symm, ?_⟩
        intro hm
        rcases List.mem_cons.mp hm with h2 | h2
        · exact hx h2.symm
        · exact hmem h2

theorem headD_splitChar (c : Char) (l : List Char) :
    (splitChar c l).headD [] = l.takeWhile (fun x => x ≠ c) := by
  induction l with
  | nil => rfl
  | cons x xs ih =>
    simp only [splitChar]
    rcases hs : splitChar c xs with _ | ⟨y, ys⟩
    · exact absurd hs (splitChar_ne_nil c xs)
    · rw [hs] at ih
      by_cases hx : x = c
      · simp [hx, List.takeWhile_cons]
      · simp only [if_neg hx, List.headD, List.takeWhile_cons]
        simp only [List.headD] at ih
        simp [hx, ih]

theorem getLastD_cons_of_ne_nil {α} (a : α) {l : List α} (d : α) (h : l ≠ []) :
    (a :: l).getLastD d = l.getLastD d := by
  cases l with
  | nil => exact absurd rfl h
  | cons b m => simp [List.getLastD]

theorem getLastD_splitChar (c : Char) (l : List Char) :
    (splitChar c l).getLastD [] = (l.reverse.takeWhile (fun x => x ≠ c)).reverse := by
  induction l with
  | nil => rfl
  | cons x xs ih =>
    rcases hs : splitChar c xs with _ | ⟨y, ys⟩
    · exact absurd hs (splitChar_ne_nil c xs)
    · have hsp : splitChar c (x :: xs) =
          if x = c then [] :: y :: ys else (x :: y) :: ys := by
        simp only [splitChar, hs]
      rw [hsp]
      rw [hs] at ih
      by_cases hx : x = c
      · rw [if_pos hx]
        rw [getLastD_cons_of_ne_nil _ _ (by simp)]
        rw [ih]
        simp only [List.reverse_cons]
        rw [takeWhile_append_singleton_false (p := fun z : Char => decide (z ≠ c))
          (a := x) (by simp [hx])]
      · rw [if_neg hx]
        rcases hys : ys with _ | ⟨z, zs⟩
        · subst hys
          obtain ⟨hy, hnm⟩ := splitChar_singleton hs
          have hnm' : c ∉ xs := hy ▸ hnm
          have hall : ∀ a ∈ xs.reverse ++ [x], (fun z : Char => decide (z ≠ c)) a = true := by
            intro a ha
            rcases List.mem_append.mp ha with h1 | h1
            · have h2 := List.mem_reverse.mp h1
              simp only [decide_eq_true_eq]
              exact fun he => hnm' (he ▸ h2)
            · simp at h1
              simp [h1, hx]
          simp only [List.getLastD, List.reverse_cons]
          rw [List.takeWhile_eq_self_iff.mpr hall]
          simp [hy]
        · subst hys
          have hne : splitChar c xs ≠ [xs] := by
            rw [hs]; intro h; injection h with h1 h2; cases h2
          have hmem : c ∈ xs := by
            by_contra hnm
            exact hne (splitChar_of_not_mem hnm)
          rw [getLastD_cons_of_ne_nil _ _ (by simp)]
          have : (z :: zs).getLastD [] = (y :: z :: zs).getLastD [] := by
            simp [List.getLastD]
          rw [this, ih]
          simp only [List.reverse_cons]
          rw [takeWhile_append_of_exists_false (p := fun z : Char => decide (z ≠ c))
            ⟨c, List.mem_reverse.mpr hmem, by simp⟩]

/- ===================== C4: filename derivation ===================== -/

/-- C4 counterexample: the claim states that the firmware filename produced by
the Remote Resource Locator equals the final `/`-segment of the URL with any
`?`-suffixed query string removed. For the URL
`https://example.com/fw.bin?v=2` the Locator (source line 44) derives
`fw.bin?v=2`, not the query-stripped `fw.bin`. -/
theorem c4_counterexample_locator_query :
    locatorFilename "https://example.com/fw.bin?v=2" ≠
      specDerivedFilename "https://example.com/fw.bin?v=2" := by decide

/-- C4 (amended): for every URL, the local filename used by the File Fetcher
(source line 49) equals the final `/`-delimited segment with any `?`-suffixed
query string removed, while the firmware filename produced by the Remote
Resource Locator (source line 44) equals the final `/`-delimited segment with
the query string left in place. -/
theorem c4_filename_derivation (url : String) :
    fetcherFilename url = specDerivedFilename url ∧
    locatorFilename url = specFinalSegment url := by
  constructor
  · show String.mk ((splitChar '?' (pySplitLast '/' url).data).headD []) = _
    have hlast : (pySplitLast '/' url).data =
        (url.data.reverse.takeWhile (fun x => x ≠ '/')).reverse := by
      show ((splitChar '/' url.data).getLastD []) = _
      exact getLastD_splitChar '/' url.data
    rw [hlast]
    show String.mk ((splitChar '?' _).headD []) = _
    rw [headD_splitChar]
    rfl
  · show String.mk ((splitChar '/' url.data).getLastD []) = _
    rw [getLastD_splitChar]
    rfl

/- ===================== C3: firmware-link resolution ===================== -/

theorem strContainsSub_go_nil (needle : List Char) :
    strContainsSub.go needle [] = needle.isEmpty := rfl

theorem anchorMatches_eq_claim (a : Anchor) :
    anchorMatches a = claimAnchorMatches a := by
  unfold anchorMatches claimAnchorMatches
  cases h : a.text.data with
  | nil =>
    have hc : strContainsSub a.text "Download [" = false := by
      unfold strContainsSub
      rw [h, strContainsSub_go_nil]
      rfl
    simp [hc]
  | cons x xs => simp [h]

/-- C3: for every parsed page body, if at least one href-carrying anchor's
visible text contains both the literal substrings `"Download ["` and `"MB"`,
then `get_latest_firmware_url` returns the first such anchor's href resolved
against the fixed page URL to an absolute URL; if no anchor matches, it
returns `none` (no URL, the operator is pointed at the manual-check page)
rather than crashing. -/
theorem c3_resolve_firmware (anchors : List Anchor) :
    ((∀ a ∈ anchors, claimAnchorMatches a = false) →
      get_latest_firmware_url anchors = none) ∧
    (∀ pre a post, anchors = pre ++ a :: post →
      (∀ b ∈ pre, claimAnchorMatches b = false) →
      claimAnchorMatches a = true →
      ∃ fn, get_latest_firmware_url anchors =
        some (urljoin FIRMWARE_PAGE a.href, fn)) := by
  constructor
  · intro hnone
    have hfind : anchors.find? anchorMatches = none := by
      rw [List.find?_eq_none]
      intro x hx
      rw [anchorMatches_eq_claim, hnone x hx]
      simp
    unfold get_latest_firmware_url
    rw [hfind]
  · intro pre a post hsplit hpre hmatch
    subst hsplit
    have hfind : List.find? anchorMatches (pre ++ a :: post) = some a := by
      induction pre with
      | nil =>
        simp only [List.nil_append, List.find?_cons, anchorMatches_eq_claim, hmatch]
      | cons b bs ih =>
        have hb : anchorMatches b = false := by
          rw [anchorMatches_eq_claim]
          exact hpre b (List.mem_cons_self b bs)
        have hbs : ∀ x ∈ bs, claimAnchorMatches x = false := fun x hx =>
          hpre x (List.mem_cons_of_mem b hx)
        simp only [List.cons_append, List.find?_cons, hb]
        exact ih hbs
    refine ⟨locatorFilename (urljoin FIRMWARE_PAGE a.href), ?_⟩
    unfold get_latest_firmware_url
    rw [hfind]

/-- C3 witness: a concrete page with one non-matching and one matching anchor. -/
theorem c3_resolve_firmware_witness :
    (∀ b ∈ [Anchor.mk "start" "Home"], claimAnchorMatches b = false) ∧
    claimAnchorMatches ⟨"/d/fw.bin", "Download [312 MB]"⟩ = true ∧
    ∃ fn, get_latest_firmware_url
        [⟨"start", "Home"⟩, ⟨"/d/fw.bin", "Download [312 MB]"⟩] =
      some (urljoin FIRMWARE_PAGE "/d/fw.bin", fn) :=
  ⟨by decide, by decide,
    (c3_resolve_firmware [⟨"start", "Home"⟩, ⟨"/d/fw.bin", "Download [312 MB]"⟩]).2
      [⟨"start", "Home"⟩] ⟨"/d/fw.bin", "Download [312 MB]"⟩ [] rfl
      (by decide) (by decide)⟩

/- ===================== C9: restore confirmation gate ===================== -/

/-- C9 counterexample: the claim states that any confirmation input other than
the exact token `"YES"` cancels the restore with zero filesystem writes, but
the script strips whitespace from the operator's input (source line 236), so
the input `" YES"` — which is not the exact expected token — proceeds and
extracts the selected archive (a nonempty write trace). -/
theorem c9_counterexample_strip :
    " YES" ≠ "YES" ∧
    restore_backup ["analogue3d_backup_2025-01-01_00-00-00.zip"]
      (fun _ => [⟨["Library"], true, ""⟩]) (some 1) " YES" ≠ [] := by
  constructor
  · decide
  · decide

/-- C9 (amended): for every confirmation input whose whitespace-stripped form
differs from the exact expected token `"YES"`, the restore cancels and
performs zero filesystem writes — no file or directory on the target volume
is created, modified or deleted (the extraction trace is empty). -/
theorem c9_no_confirm_no_writes (dirListing : List String)
    (archives : String → List ZipEntry) (choice : Option Int) (confirm : String)
    (h : pyStrip confirm ≠ "YES") :
    restore_backup dirListing archives choice confirm = [] := by
  unfold restore_backup
  by_cases h1 : dirListing.isEmpty
  · simp [h1]
  · simp only [h1, Bool.false_eq_true, if_false]
    cases choice with
    | none => rfl
    | some c =>
      cases hidx : pyIndex (list_backups dirListing) (c - 1) with
      | none => simp [hidx]
      | some sel => simp [hidx, h]

/-- C9 witness: a concrete rejected confirmation. -/
theorem c9_no_confirm_no_writes_witness :
    pyStrip "no" ≠ "YES" ∧
    restore_backup ["analogue3d_backup_2025-01-01_00-00-00.zip"]
      (fun _ => [⟨["Library"], true, ""⟩]) (some 1) "no" = [] :=
  ⟨by decide, c9_no_confirm_no_writes _ _ _ _ (by decide)⟩

/- ===================== C8: backup listing order ===================== -/

theorem lexLe_total (x y : List Char) : lexLe x y = true ∨ lexLe y x = true := by
  induction x generalizing y with
  | nil => left; rfl
  | cons a as ih =>
    cases y with
    | nil => right; rfl
    | cons b bs =>
      rcases lt_trichotomy a b with h | h | h
      · left; simp [lexLe, h]
      · subst h
        rcases ih bs with h1 | h1
        · left; simp [lexLe, lt_irrefl, h1]
        · right; simp [lexLe, lt_irrefl, h1]
      · right; simp [lexLe, h]

theorem lexLe_trans {x y z : List Char} (h1 : lexLe x y = true)
    (h2 : lexLe y z = true) : lexLe x z = true := by
  induction x generalizing y z with
  | nil => rfl
  | cons a as ih =>
    cases y with
    | nil => simp [lexLe] at h1
    | cons b bs =>
      cases z with
      | nil => simp [lexLe] at h2
      | cons c cs =>
        simp only [lexLe] at h1 h2 ⊢
        by_cases hab : a < b
        · by_cases hbc : b < c
          · simp [lt_trans hab hbc]
          · by_cases hcb : c < b
            · simp [hbc, hcb] at h2
            · have hbc' : b = c := le_antisymm (not_lt.mp hcb) (not_lt.mp hbc)
              subst hbc'
              simp [hab]
        · by_cases hba : b < a
          · simp [hab, hba] at h1
          · have hab' : a = b := le_antisymm (not_lt.mp hba) (not_lt.mp hab)
            subst hab'
            simp only [lt_irrefl, if_false] at h1
            by_cases hac : a < c
            · simp [hac]
            · by_cases hca : c < a
              · simp [hac, hca] at h2
              · simp only [hac, hca, if_false] at h2 ⊢
                exact ih h1 h2

/-- C8: for every backup-directory listing, `list_backups` returns exactly the
entries whose names match `analogue3d_backup_*.zip` (as a permutation of the
filtered listing, so membership is exact), sorted descending by filename in
Python string order; on the claim's concrete timestamps the order is
2025-06-01, then 2025-01-01, then 2024-12-31 (newest first). -/
theorem c8_list_backups :
    (∀ dirListing : List String,
      (list_backups dirListing).Perm (dirListing.filter backupNameMatches) ∧
      (list_backups dirListing).Sorted (fun a b => strLe b a = true) ∧
      (∀ f, f ∈ list_backups dirListing ↔
        f ∈ dirListing ∧ backupNameMatches f = true)) ∧
    list_backups
      ["analogue3d_backup_2025-01-01_00-00-00.zip",
       "analogue3d_backup_2025-06-01_12-00-00.zip",
       "analogue3d_backup_2024-12-31_23-59-59.zip"] =
      ["analogue3d_backup_2025-06-01_12-00-00.zip",
       "analogue3d_backup_2025-01-01_00-00-00.zip",
       "analogue3d_backup_2024-12-31_23-59-59.zip"] := by
  constructor
  · intro dirListing
    have hperm := List.perm_insertionSort (fun a b : String => strLe b a = true)
      (dirListing.filter backupNameMatches)
    refine ⟨hperm, ?_, ?_⟩
    · exact @List.sorted_insertionSort String (fun a b => strLe b a = true) decStrGe
        ⟨fun a b => lexLe_total b.data a.data⟩
        ⟨fun _ _ _ hab hbc => lexLe_trans hbc hab⟩
        (dirListing.filter backupNameMatches)
    · intro f
      rw [show (f ∈ list_backups dirListing) =
          (f ∈ dirListing.filter backupNameMatches) from propext hperm.mem_iff]
      exact List.mem_filter
  · decide

/- ===================== C5: volume candidate filtering ===================== -/

theorem containsStr_iff (l : List String) (a : String) : l.contains a = true ↔ a ∈ l := by
  show l.elem a = true ↔ a ∈ l
  exact List.elem_iff

theorem sd_fold_mem (parts : List DiskPartition) (acc : List (String × Nat)) (d : String) :
    (∃ g, (d, g) ∈ parts.foldl sdCardStep acc) ↔
      ((∃ g, (d, g) ∈ acc) ∨ ∃ p ∈ parts, sdCandidateRule p = true ∧ displayPath p = d) := by
  induction parts generalizing acc with
  | nil => simp
  | cons q qs ih =>
    rw [List.foldl_cons, ih]
    have hstep : (∃ g, (d, g) ∈ sdCardStep acc q) ↔
        ((∃ g, (d, g) ∈ acc) ∨ (sdCandidateRule q = true ∧ displayPath q = d)) := by
      unfold sdCardStep
      by_cases hq : sdCandidateRule q = true
      · rw [if_pos hq]
        by_cases hdup : (acc.map Prod.fst).contains (displayPath q) = true
        · rw [if_pos hdup]
          constructor
          · intro h; exact Or.inl h
          · rintro (h | ⟨-, hd⟩)
            · exact h
            · subst hd
              have hm := (containsStr_iff _ _).mp hdup
              obtain ⟨⟨d', g⟩, hmem, he⟩ := List.mem_map.mp hm
              exact ⟨g, by simpa [← he] using hmem⟩
        · rw [if_neg hdup]
          constructor
          · rintro ⟨g, hg⟩
            rcases List.mem_append.mp hg with h1 | h1
            · exact Or.inl ⟨g, h1⟩
            · have h2 : (d, g) = (displayPath q, q.freeGB.getD 0) := by
                simpa using h1
              exact Or.inr ⟨hq, (congrArg Prod.fst h2).symm⟩
          · rintro (⟨g, hg⟩ | ⟨-, hd⟩)
            · exact ⟨g, List.mem_append.mpr (Or.inl hg)⟩
            · exact ⟨q.freeGB.getD 0, List.mem_append.mpr (Or.inr (by simp [hd]))⟩
      · rw [if_neg hq]
        constructor
        · exact Or.inl
        · rintro (h | ⟨hq', -⟩)
          · exact h
          · exact absurd hq' hq
    rw [hstep]
    constructor
    · rintro ((h | h) | h)
      · exact Or.inl h
      · exact Or.inr ⟨q, List.mem_cons_self q qs, h⟩
      · obtain ⟨p, hp, hrest⟩ := h
        exact Or.inr ⟨p, List.mem_cons_of_mem q hp, hrest⟩
    · rintro (h | ⟨p, hp, hrest⟩)
      · exact Or.inl (Or.inl h)
      · rcases List.mem_cons.mp hp with h1 | h1
        · subst h1; exact Or.inl (Or.inr hrest)
        · exact Or.inr ⟨p, h1, hrest⟩

theorem sd_fold_nodup (parts : List DiskPartition) (acc : List (String × Nat))
    (h : (acc.map Prod.fst).Nodup) :
    ((parts.foldl sdCardStep acc).map Prod.fst).Nodup := by
  induction parts generalizing acc with
  | nil => simpa
  | cons q qs ih =>
    rw [List.foldl_cons]
    apply ih
    unfold sdCardStep
    by_cases hq : sdCandidateRule q = true
    · rw [if_pos hq]
      by_cases hdup : (acc.map Prod.fst).contains (displayPath q) = true
      · rw [if_pos hdup]; exact h
      · rw [if_neg hdup]
        rw [List.map_append]
        have hnm : displayPath q ∉ acc.map Prod.fst := by
          intro hm
          exact hdup ((containsStr_iff _ _).mpr hm)
        simp [List.nodup_append, h, hnm]
    · rw [if_neg hq]; exact h

/-- C5: for every list of mounted volumes reported by the host,
`get_potential_sd_cards` returns exactly those volumes that are writable AND
(removable-looking per the mount options, OR of an allowed filesystem type
{fat, fat32, exfat, vfat, ntfs}, OR mounted under /media/, /Volumes/ or
/mnt/), keyed by their normalized display path, with duplicate mount paths
suppressed. -/
theorem c5_list_candidates (parts : List DiskPartition) :
    (∀ d, (∃ g, (d, g) ∈ get_potential_sd_cards parts) ↔
      ∃ p ∈ parts, sdCandidateRule p = true ∧ displayPath p = d) ∧
    ((get_potential_sd_cards parts).map Prod.fst).Nodup := by
  constructor
  · intro d
    have := sd_fold_mem parts [] d
    simpa [get_potential_sd_cards] using this
  · exact sd_fold_nodup parts [] (by simp)

/- ===================== Helper lemmas: well-formed trees and lookup ===================== -/

theorem wfChildren_mem_wf {cs : List (String × FSTree)} {n : String} {t : FSTree}
    (hwf : wfChildren cs = true) (hm : (n, t) ∈ cs) : wfTree t = true := by
  induction cs with
  | nil => cases hm
  | cons c rest ih =>
    obtain ⟨m, u⟩ := c
    simp only [wfChildren, Bool.and_eq_true] at hwf
    rcases List.mem_cons.mp hm with h1 | h1
    · injection h1 with h2 h3
      subst h3
      exact hwf.1.2
    · exact ih hwf.2 h1

theorem wf_keys_nodup {cs : List (String × FSTree)}
    (hwf : wfChildren cs = true) : (cs.map Prod.fst).Nodup := by
  induction cs with
  | nil => simp
  | cons c rest ih =>
    obtain ⟨m, u⟩ := c
    simp only [wfChildren, Bool.and_eq_true] at hwf
    have hnotin : m ∉ rest.map Prod.fst := by
      intro hmem
      obtain ⟨⟨m', u'⟩, hm', he⟩ := List.mem_map.mp hmem
      have he' : m' = m := he
      have : rest.any (fun c => c.1 == m) = true :=
        List.any_eq_true.mpr ⟨(m', u'), hm', by simp [he']⟩
      rw [this] at hwf
      simp at hwf
    simp only [List.map_cons, List.nodup_cons]
    exact ⟨hnotin, ih hwf.2⟩

theorem find_key_of_mem {α : Type} {cs : List (String × α)} {n : String} {t : α}
    (hnd : (cs.map Prod.fst).Nodup) (hm : (n, t) ∈ cs) :
    cs.find? (fun c => c.1 == n) = some (n, t) := by
  induction cs with
  | nil => cases hm
  | cons c rest ih =>
    obtain ⟨m, u⟩ := c
    simp only [List.map_cons, List.nodup_cons] at hnd
    rcases List.mem_cons.mp hm with h1 | h1
    · injection h1 with h2 h3
      subst h2; subst h3
      simp [List.find?_cons]
    · have hmn : m ≠ n := by
        intro he
        subst he
        exact hnd.1 (List.mem_map.mpr ⟨(m, t), h1, rfl⟩)
      simp only [List.find?_cons]
      have : ((m, u).1 == n) = false := by simp [hmn]
      rw [this]
      exact ih hnd.2 h1

theorem find?_key_eq {α : Type} {cs : List (String × α)} {n : String} {c : String × α}
    (hf : cs.find? (fun c => c.1 == n) = some c) : c ∈ cs ∧ c.1 = n := by
  refine ⟨List.mem_of_find?_eq_some hf, ?_⟩
  have := List.find?_some hf
  simpa using this

theorem key_unique {α : Type} {cs : List (String × α)} {n : String} {a b : α}
    (hnd : (cs.map Prod.fst).Nodup) (ha : (n, a) ∈ cs) (hb : (n, b) ∈ cs) : a = b := by
  have h1 := find_key_of_mem hnd ha
  have h2 := find_key_of_mem hnd hb
  rw [h1] at h2
  exact congrArg Prod.snd (Option.some.inj h2)

theorem sizeOf_child_lt {cs : List (String × FSTree)} {n : String} {t : FSTree}
    (hm : (n, t) ∈ cs) : sizeOf t < sizeOf (FSTree.dir cs) := by
  have h1 : sizeOf (n, t) < sizeOf cs := List.sizeOf_lt_of_mem hm
  have h2 : sizeOf t < sizeOf (n, t) := by
    simp only [Prod.mk.sizeOf_spec]
    omega
  have h3 : sizeOf (FSTree.dir cs) = 1 + sizeOf cs := by
    simp [FSTree.dir.sizeOf_spec]
  omega

theorem lookup_append (t : FSTree) (q r : List String) :
    lookupIn t (q ++ r) = (lookupIn t q).bind (fun u => lookupIn u r) := by
  induction q generalizing t with
  | nil => simp [lookupIn]
  | cons n q' ih =>
    cases t with
    | file c => simp [lookupIn]
    | dir cs =>
      simp only [List.cons_append, lookupIn]
      cases hf : cs.find? (fun c => c.1 == n) with
      | none => simp
      | some c => exact ih c.2

theorem lookup_prefix_dir {t : FSTree} {q : List String} {n : String} {r : List String} {u : FSTree}
    (h : lookupIn t (q ++ n :: r) = some u) : ∃ ds, lookupIn t q = some (.dir ds) := by
  rw [lookup_append] at h
  cases hq : lookupIn t q with
  | none => rw [hq] at h; cases h
  | some w =>
    rw [hq] at h
    cases w with
    | file c => simp [lookupIn] at h
    | dir ds => exact ⟨ds, rfl⟩

theorem wf_lookup {t : FSTree} {q : List String} {u : FSTree}
    (hwf : wfTree t = true) (h : lookupIn t q = some u) : wfTree u = true := by
  induction q generalizing t with
  | nil => simp only [lookupIn] at h; injection h with h1; subst h1; exact hwf
  | cons n q' ih =>
    cases t with
    | file c => simp [lookupIn] at h
    | dir cs =>
      simp only [lookupIn] at h
      cases hf : cs.find? (fun c => c.1 == n) with
      | none => rw [hf] at h; cases h
      | some c =>
        rw [hf] at h
        obtain ⟨hmem, -⟩ := find?_key_eq hf
        have hwfc : wfTree c.2 = true := by
          have hwcs : wfChildren cs = true := by simpa [wfTree] using hwf
          exact wfChildren_mem_wf hwcs (by simpa using hmem)
        exact ih hwfc h

theorem lookup_cons_of_mem {cs : List (String × FSTree)} {n : String} {t : FSTree}
    (hwf : wfChildren cs = true) (hm : (n, t) ∈ cs) (rest : List String) :
    lookupIn (.dir cs) (n :: rest) = lookupIn t rest := by
  simp only [lookupIn]
  rw [find_key_of_mem (wf_keys_nodup hwf) hm]

/- ===================== Helper lemmas: the backup walk ===================== -/

theorem exists_leaf :
    ∀ (u : FSTree), wfTree u = true → u.isDir = true →
      ∃ r, lookupIn u r = some (.dir []) ∨ ∃ c, lookupIn u r = some (.file c) := by
  have main : ∀ (N : Nat) (u : FSTree), sizeOf u < N → wfTree u = true → u.isDir = true →
      ∃ r, lookupIn u r = some (.dir []) ∨ ∃ c, lookupIn u r = some (.file c) := by
    intro N
    induction N with
    | zero => intro u hu; omega
    | succ N ih =>
      intro u hu hwf hdir
      cases u with
      | file c => simp [FSTree.isDir] at hdir
      | dir cs =>
        cases cs with
        | nil => exact ⟨[], Or.inl rfl⟩
        | cons c₀ rest =>
          obtain ⟨n, t⟩ := c₀
          have hwcs : wfChildren ((n, t) :: rest) = true := by
            simpa [wfTree] using hwf
          have hmem : (n, t) ∈ (n, t) :: rest := List.mem_cons_self _ _
          have hlk := lookup_cons_of_mem hwcs hmem
          cases t with
          | file c =>
            exact ⟨[n], Or.inr ⟨c, by rw [hlk]; rfl⟩⟩
          | dir ds =>
            have hsz : sizeOf (FSTree.dir ds) < N := by
              have := sizeOf_child_lt hmem
              omega
            have hwft : wfTree (FSTree.dir ds) = true := wfChildren_mem_wf hwcs hmem
            obtain ⟨r, hr⟩ := ih (FSTree.dir ds) hsz hwft rfl
            refine ⟨n :: r, ?_⟩
            rw [hlk]
            exact hr
  intro u hwf hdir
  exact main (sizeOf u + 1) u (Nat.lt_succ_self _) hwf hdir

theorem mem_levelEntries {p : List String} {cs : List (String × FSTree)} {e : ZipEntry} :
    e ∈ levelEntries p cs ↔
      ((∃ n, (n, FSTree.dir []) ∈ cs ∧ e = ⟨p ++ [n], true, ""⟩) ∨
       (∃ n c, (n, FSTree.file c) ∈ cs ∧ e = ⟨p ++ [n], false, c⟩)) := by
  unfold levelEntries
  rw [List.mem_append]
  constructor
  · rintro (h | h)
    · obtain ⟨⟨n, t⟩, hm, he⟩ := List.mem_filterMap.mp h
      cases t with
      | file c => simp at he
      | dir ds =>
        cases ds with
        | nil =>
          simp only [Option.some.injEq] at he
          exact Or.inl ⟨n, hm, he.symm⟩
        | cons d ds' => simp at he
    · obtain ⟨⟨n, t⟩, hm, he⟩ := List.mem_filterMap.mp h
      cases t with
      | file c =>
        simp only [Option.some.injEq] at he
        exact Or.inr ⟨n, c, hm, he.symm⟩
      | dir ds => simp at he
  · rintro (⟨n, hm, he⟩ | ⟨n, c, hm, he⟩)
    · exact Or.inl (List.mem_filterMap.mpr ⟨(n, FSTree.dir []), hm, by rw [he]⟩)
    · exact Or.inr (List.mem_filterMap.mpr ⟨(n, FSTree.file c), hm, by rw [he]⟩)

theorem mem_walkKids {p : List String} {cs : List (String × FSTree)} {e : ZipEntry} :
    e ∈ walkKids p cs ↔ ∃ n t, (n, t) ∈ cs ∧ e ∈ walkDir (p ++ [n]) t := by
  induction cs with
  | nil => simp [walkKids]
  | cons c rest ih =>
    obtain ⟨n, t⟩ := c
    simp only [walkKids, List.mem_append, ih]
    constructor
    · rintro (h | ⟨m, u, hm, hu⟩)
      · exact ⟨n, t, List.mem_cons_self _ _, h⟩
      · exact ⟨m, u, List.mem_cons_of_mem _ hm, hu⟩
    · rintro ⟨m, u, hm, hu⟩
      rcases List.mem_cons.mp hm with h1 | h1
      · injection h1 with h2 h3
        subst h2; subst h3
        exact Or.inl hu
      · exact Or.inr ⟨m, u, h1, hu⟩

theorem mem_walkDir :
    ∀ (t : FSTree) (p : List String) (e : ZipEntry), wfTree t = true →
      (e ∈ walkDir p t ↔ ∃ rest, rest ≠ [] ∧ entryFor t p e rest) := by
  have main : ∀ (N : Nat) (t : FSTree), sizeOf t < N → ∀ (p : List String) (e : ZipEntry),
      wfTree t = true →
      (e ∈ walkDir p t ↔ ∃ rest, rest ≠ [] ∧ entryFor t p e rest) := by
    intro N
    induction N with
    | zero => intro t ht; omega
    | succ N ih =>
      intro t ht p e hwf
      cases t with
      | file c =>
        simp only [walkDir, List.not_mem_nil, false_iff]
        rintro ⟨rest, hne, hsegs, hdisj⟩
        rcases rest with _ | ⟨n, r⟩
        · exact hne rfl
        · rcases hdisj with ⟨-, -, hl⟩ | ⟨-, hl⟩ <;> simp [lookupIn] at hl
      | dir cs =>
        have hwcs : wfChildren cs = true := by simpa [wfTree] using hwf
        have hnd := wf_keys_nodup hwcs
        constructor
        · intro hmem
          rw [show walkDir p (FSTree.dir cs) = levelEntries p cs ++ walkKids p cs from by
            simp [walkDir]] at hmem
          rcases List.mem_append.mp hmem with h | h
          · rcases mem_levelEntries.mp h with ⟨n, hm, he⟩ | ⟨n, c, hm, he⟩
            · refine ⟨[n], by simp, ?_, Or.inl ?_⟩
              · rw [he]
              · refine ⟨by rw [he], by rw [he], ?_⟩
                rw [lookup_cons_of_mem hwcs hm]
                rfl
            · refine ⟨[n], by simp, ?_, Or.inr ?_⟩
              · rw [he]
              · refine ⟨by rw [he], ?_⟩
                rw [lookup_cons_of_mem hwcs hm, he]
                rfl
          · obtain ⟨n, t', hm, hmem'⟩ := mem_walkKids.mp h
            have hsz : sizeOf t' < N := by
              have := sizeOf_child_lt hm
              omega
            have hwft : wfTree t' = true := wfChildren_mem_wf hwcs hm
            obtain ⟨r, hr, hsegs, hdisj⟩ := (ih t' hsz (p ++ [n]) e hwft).mp hmem'
            refine ⟨n :: r, by simp, ?_, ?_⟩
            · rw [hsegs, List.append_assoc]
              rfl
            · rw [lookup_cons_of_mem hwcs hm]
              exact hdisj
        · rintro ⟨rest, hne, hsegs, hdisj⟩
          rcases rest with _ | ⟨n, r⟩
          · exact absurd rfl hne
          rw [show walkDir p (FSTree.dir cs) = levelEntries p cs ++ walkKids p cs from by
            simp [walkDir]]
          cases hf : cs.find? (fun c => c.1 == n) with
          | none =>
            exfalso
            have hlk : lookupIn (FSTree.dir cs) (n :: r) = none := by
              simp [lookupIn, hf]
            rcases hdisj with ⟨-, -, hl⟩ | ⟨-, hl⟩ <;> rw [hlk] at hl <;> cases hl
          | some c₀ =>
            obtain ⟨hc₀mem, hc₀key⟩ := find?_key_eq hf
            have hlk : lookupIn (FSTree.dir cs) (n :: r) = lookupIn c₀.2 r := by
              simp [lookupIn, hf]
            have hc₀mem' : (n, c₀.2) ∈ cs := by
              have : c₀ = (n, c₀.2) := by
                obtain ⟨k, v⟩ := c₀
                simp only at hc₀key
                rw [hc₀key]
              rw [← this]
              exact hc₀mem
            rcases r with _ | ⟨m, r'⟩
            · rcases hdisj with ⟨hd, hpay, hl⟩ | ⟨hd, hl⟩
              · rw [hlk] at hl
                simp only [lookupIn, Option.some.injEq] at hl
                apply List.mem_append.mpr
                apply Or.inl
                apply mem_levelEntries.mpr
                refine Or.inl ⟨n, hl ▸ hc₀mem', ?_⟩
                obtain ⟨segs, dmark, pay⟩ := e
                simp only at hsegs hd hpay
                rw [hsegs, hd, hpay]
              · rw [hlk] at hl
                simp only [lookupIn, Option.some.injEq] at hl
                apply List.mem_append.mpr
                apply Or.inl
                apply mem_levelEntries.mpr
                refine Or.inr ⟨n, e.payload, hl ▸ hc₀mem', ?_⟩
                obtain ⟨segs, dmark, pay⟩ := e
                simp only at hsegs hd
                rw [hsegs, hd]
            · have hne' : lookupIn c₀.2 (m :: r') ≠ none := by
                rcases hdisj with ⟨-, -, hl⟩ | ⟨-, hl⟩ <;> rw [hlk] at hl <;> simp [hl]
              cases ht' : c₀.2 with
              | file c =>
                exfalso
                rw [ht'] at hne'
                simp [lookupIn] at hne'
              | dir ds =>
                apply List.mem_append.mpr
                apply Or.inr
                apply mem_walkKids.mpr
                refine ⟨n, c₀.2, hc₀mem', ?_⟩
                have hsz : sizeOf c₀.2 < N := by
                  have := sizeOf_child_lt hc₀mem'
                  omega
                have hwft : wfTree c₀.2 = true := wfChildren_mem_wf hwcs hc₀mem'
                apply (ih c₀.2 hsz (p ++ [n]) e hwft).mpr
                refine ⟨m :: r', by simp, ?_, ?_⟩
                · rw [hsegs, List.append_assoc]
                  rfl
                · rw [hlk] at hdisj
                  exact hdisj
  intro t p e hwf
  exact main (sizeOf t + 1) t (Nat.lt_succ_self _) p e hwf

/- ===================== Helper lemmas: create_backup membership ===================== -/

theorem mem_create_backup {vol : List (String × FSTree)} {e : ZipEntry}
    (hwf : wfChildren vol = true) :
    e ∈ create_backup vol ↔
      ∃ f t, (f, t) ∈ foldersToBackup vol ∧
        (e = ⟨[f], true, ""⟩ ∨ ∃ rest, rest ≠ [] ∧ entryFor t [f] e rest) := by
  unfold create_backup
  rw [List.mem_flatMap]
  constructor
  · rintro ⟨⟨f, t⟩, hm, he⟩
    rcases List.mem_cons.mp he with h1 | h1
    · exact ⟨f, t, hm, Or.inl h1⟩
    · have hmvol : (f, t) ∈ vol := (List.mem_filter.mp hm).1
      have hwft : wfTree t = true := wfChildren_mem_wf hwf hmvol
      exact ⟨f, t, hm, Or.inr ((mem_walkDir t [f] e hwft).mp h1)⟩
  · rintro ⟨f, t, hm, hcase⟩
    refine ⟨(f, t), hm, ?_⟩
    rcases hcase with h1 | h1
    · rw [h1]; exact List.mem_cons_self _ _
    · have hmvol : (f, t) ∈ vol := (List.mem_filter.mp hm).1
      have hwft : wfTree t = true := wfChildren_mem_wf hwf hmvol
      exact List.mem_cons_of_mem _ ((mem_walkDir t [f] e hwft).mpr h1)

theorem folders_keys_nodup {vol : List (String × FSTree)}
    (hwf : wfChildren vol = true) : ((foldersToBackup vol).map Prod.fst).Nodup :=
  ((List.filter_sublist vol).map Prod.fst).nodup (wf_keys_nodup hwf)

theorem folders_isDir {vol : List (String × FSTree)} {f : String} {t : FSTree}
    (hm : (f, t) ∈ foldersToBackup vol) : t.isDir = true := by
  have := (List.mem_filter.mp hm).2
  simp only [Bool.and_eq_true] at this
  exact this.1

theorem backupLookup_some {vol : List (String × FSTree)} {p : List String} {u : FSTree}
    (h : backupLookup vol p = some u) :
    ∃ f t rest, p = f :: rest ∧ (f, t) ∈ foldersToBackup vol ∧
      lookupIn t rest = some u := by
  cases p with
  | nil => cases h
  | cons f rest =>
    simp only [backupLookup] at h
    cases hf : (foldersToBackup vol).find? (fun c => c.1 == f) with
    | none => rw [hf] at h; cases h
    | some c₀ =>
      rw [hf] at h
      obtain ⟨hmem, hkey⟩ := find?_key_eq hf
      have hc : c₀ = (f, c₀.2) := by
        obtain ⟨k, v⟩ := c₀
        simp only at hkey
        rw [hkey]
      exact ⟨f, c₀.2, rest, rfl, hc ▸ hmem, h⟩

theorem backupLookup_eq_of_mem {vol : List (String × FSTree)} {f : String} {t : FSTree}
    (hwf : wfChildren vol = true) (hm : (f, t) ∈ foldersToBackup vol)
    (rest : List String) :
    backupLookup vol (f :: rest) = lookupIn t rest := by
  simp only [backupLookup]
  rw [find_key_of_mem (folders_keys_nodup hwf) hm]

theorem getLast?_all_eq {α : Type} {l : List α} {a : α} (hne : l ≠ [])
    (hall : ∀ x ∈ l, x = a) : l.getLast? = some a := by
  induction l with
  | nil => exact absurd rfl hne
  | cons x xs ih =>
    cases xs with
    | nil => simp [hall x (List.mem_cons_self _ _)]
    | cons y ys =>
      rw [List.getLast?_cons_cons]
      exact ih (by simp) (fun z hz => hall z (List.mem_cons_of_mem _ hz))

theorem strict_prefix_decomp {α : Type} {q l : List α} (h : q <+: l) (hne : q ≠ l) :
    ∃ m r, l = q ++ m :: r := by
  obtain ⟨s, hs⟩ := h
  cases s with
  | nil => rw [List.append_nil] at hs; exact absurd hs hne
  | cons m r => exact ⟨m, r, hs.symm⟩

theorem exists_entry_above {vol : List (String × FSTree)} {p : List String}
    {ds : List (String × FSTree)} (hwf : wfChildren vol = true)
    (hp : backupLookup vol p = some (.dir ds)) :
    ∃ e ∈ create_backup vol,
      (e.isDirEntry = true ∧ p <+: e.segs) ∨
      (e.isDirEntry = false ∧ p <+: e.segs ∧ p ≠ e.segs) := by
  obtain ⟨f, t, rest, hp_eq, hm, hlk⟩ := backupLookup_some hp
  subst hp_eq
  cases rest with
  | nil =>
    exact ⟨⟨[f], true, ""⟩, (mem_create_backup hwf).mpr ⟨f, t, hm, Or.inl rfl⟩,
      Or.inl ⟨rfl, List.prefix_refl _⟩⟩
  | cons m r₀ =>
    have hmvol := (List.mem_filter.mp hm).1
    have hwft : wfTree t = true := wfChildren_mem_wf hwf hmvol
    have hwfu : wfTree (FSTree.dir ds) = true := wf_lookup hwft hlk
    obtain ⟨r, hr⟩ := exists_leaf (FSTree.dir ds) hwfu rfl
    rcases hr with hdirleaf | ⟨c, hfileleaf⟩
    · have hlk2 : lookupIn t ((m :: r₀) ++ r) = some (.dir []) := by
        rw [lookup_append, hlk]
        exact hdirleaf
      refine ⟨⟨f :: ((m :: r₀) ++ r), true, ""⟩,
        (mem_create_backup hwf).mpr
          ⟨f, t, hm, Or.inr ⟨(m :: r₀) ++ r, by simp, rfl, Or.inl ⟨rfl, rfl, hlk2⟩⟩⟩,
        Or.inl ⟨rfl, ?_⟩⟩
      exact List.cons_prefix_cons.mpr ⟨rfl, List.prefix_append _ _⟩
    · have hr_ne : r ≠ [] := by
        intro h0
        subst h0
        simp [lookupIn] at hfileleaf
      have hlk2 : lookupIn t ((m :: r₀) ++ r) = some (.file c) := by
        rw [lookup_append, hlk]
        exact hfileleaf
      refine ⟨⟨f :: ((m :: r₀) ++ r), false, c⟩,
        (mem_create_backup hwf).mpr
          ⟨f, t, hm, Or.inr ⟨(m :: r₀) ++ r, by simp, rfl, Or.inr ⟨rfl, hlk2⟩⟩⟩,
        Or.inr ⟨rfl, ?_, ?_⟩⟩
      · exact List.cons_prefix_cons.mpr ⟨rfl, List.prefix_append _ _⟩
      · intro heq
        have htail : ((m :: r₀) : List String) = (m :: r₀) ++ r := by
          injection heq
        have hlen := congrArg List.length htail
        rw [List.length_append] at hlen
        exact hr_ne (List.length_eq_zero.mp (by omega))

theorem origDir_of_entry_above {vol : List (String × FSTree)} {p : List String} {e : ZipEntry}
    (hwf : wfChildren vol = true) (hmem : e ∈ create_backup vol) (hpne : p ≠ [])
    (hpred : (e.isDirEntry = true ∧ p <+: e.segs) ∨
      (e.isDirEntry = false ∧ p <+: e.segs ∧ p ≠ e.segs)) :
    origDirAt vol p = true := by
  obtain ⟨f', t', hm', hcase⟩ := (mem_create_backup hwf).mp hmem
  rcases hcase with h1 | ⟨rest', hne', hsegs', hdisj'⟩
  · subst h1
    rcases hpred with ⟨-, hpre⟩ | ⟨hfd, -, -⟩
    · have hp_eq : p = [f'] := by
        cases p with
        | nil => exact absurd rfl hpne
        | cons x xs =>
          obtain ⟨hx, hxs⟩ := List.cons_prefix_cons.mp hpre
          rw [hx, List.prefix_nil.mp hxs]
      subst hp_eq
      unfold origDirAt
      rw [backupLookup_eq_of_mem hwf hm' []]
      cases ht' : t' with
      | file c =>
        have := folders_isDir hm'
        rw [ht'] at this
        simp [FSTree.isDir] at this
      | dir ds => simp [lookupIn]
    · simp at hfd
  · have hpre : p <+: e.segs := by
      rcases hpred with ⟨-, h⟩ | ⟨-, h, -⟩ <;> exact h
    have hsegs'' : e.segs = f' :: rest' := hsegs'
    rw [hsegs''] at hpre
    obtain ⟨q, hpq, hq⟩ : ∃ q, p = f' :: q ∧ q <+: rest' := by
      cases p with
      | nil => exact absurd rfl hpne
      | cons x xs =>
        obtain ⟨hx, hxs⟩ := List.cons_prefix_cons.mp hpre
        exact ⟨xs, by rw [hx], hxs⟩
    subst hpq
    have horig : ∀ ds₀, lookupIn t' q = some (.dir ds₀) → origDirAt vol (f' :: q) = true := by
      intro ds₀ hds
      unfold origDirAt
      rw [backupLookup_eq_of_mem hwf hm' q, hds]
    rcases hdisj' with ⟨hdm, hpay, hl⟩ | ⟨hfm, hl⟩
    · by_cases hqeq : q = rest'
      · subst hqeq
        exact horig [] hl
      · obtain ⟨m, r₂, hdec⟩ := strict_prefix_decomp hq hqeq
        rw [hdec] at hl
        obtain ⟨ds', hds⟩ := lookup_prefix_dir hl
        exact horig ds' hds
    · have hqne : q ≠ rest' := by
        rcases hpred with ⟨hd, -⟩ | ⟨-, -, hne2⟩
        · rw [hfm] at hd; cases hd
        · intro hqe
          apply hne2
          rw [hsegs'', hqe]
      obtain ⟨m, r₂, hdec⟩ := strict_prefix_decomp hq hqne
      rw [hdec] at hl
      obtain ⟨ds', hds⟩ := lookup_prefix_dir hl
      exact horig ds' hds

/- ===================== C1: backup/restore round trip ===================== -/

/-- C1: for every well-formed volume, creating a backup and extracting the
resulting archive into an empty target reproduces exactly the tree under the
designated top-level folders: at every path, the restored target holds a file
with given contents exactly when the backed-up region held that file, and the
restored target holds a directory (a real directory, as created for marker
entries and ancestors — never a zero-byte file) exactly when the backed-up
region held a directory there, with the original name casing (paths are
compared verbatim). -/
theorem c1_backup_restore_roundtrip (vol : List (String × FSTree))
    (hwf : wfChildren vol = true) (p : List String) :
    extractedFileAt (create_backup vol) p = origFileAt vol p ∧
    extractedDirAt (create_backup vol) p = origDirAt vol p := by
  have hfiltiff : ∀ (q : List String) (e : ZipEntry),
      e ∈ (create_backup vol).filter (fun e => !e.isDirEntry && e.segs == q) ↔
      (e ∈ create_backup vol ∧ e.isDirEntry = false ∧ e.segs = q) := by
    intro q e
    rw [List.mem_filter]
    constructor
    · rintro ⟨h1, h2⟩
      rw [Bool.and_eq_true] at h2
      exact ⟨h1, by simpa using h2.1, by simpa using h2.2⟩
    · rintro ⟨h1, h2, h3⟩
      refine ⟨h1, ?_⟩
      rw [Bool.and_eq_true]
      exact ⟨by simp [h2], by simp [h3]⟩
  constructor
  · cases horig : origFileAt vol p with
    | some c =>
      have hbl : backupLookup vol p = some (.file c) := by
        unfold origFileAt at horig
        cases hb : backupLookup vol p with
        | none => rw [hb] at horig; cases horig
        | some u =>
          rw [hb] at horig
          cases u with
          | file c' =>
            simp only [Option.some.injEq] at horig
            rw [horig]
          | dir ds => cases horig
      obtain ⟨f, t, rest, hp_eq, hm, hlk⟩ := backupLookup_some hbl
      subst hp_eq
      have hrest_ne : rest ≠ [] := by
        intro h0
        subst h0
        simp only [lookupIn, Option.some.injEq] at hlk
        have hd := folders_isDir hm
        rw [hlk] at hd
        simp [FSTree.isDir] at hd
      have hmem₀ : (⟨f :: rest, false, c⟩ : ZipEntry) ∈ create_backup vol :=
        (mem_create_backup hwf).mpr ⟨f, t, hm, Or.inr ⟨rest, hrest_ne, rfl, Or.inr ⟨rfl, hlk⟩⟩⟩
      have hall : ∀ e ∈ (create_backup vol).filter
          (fun e => !e.isDirEntry && e.segs == f :: rest),
          e = ⟨f :: rest, false, c⟩ := by
        intro e he
        obtain ⟨hmem, hdf, hsegs⟩ := (hfiltiff _ e).mp he
        obtain ⟨f', t', hm', hcase⟩ := (mem_create_backup hwf).mp hmem
        rcases hcase with h1 | ⟨rest', hne', hsegs', hdisj'⟩
        · rw [h1] at hdf
          simp at hdf
        · have hfr : f' :: rest' = f :: rest := by
            have h2 : e.segs = f' :: rest' := hsegs'
            rw [← h2, hsegs]
          injection hfr with hfr1 hfr2
          subst hfr1
          subst hfr2
          have ht : t' = t := key_unique (folders_keys_nodup hwf) hm' hm
          subst ht
          rcases hdisj' with ⟨hd, -, -⟩ | ⟨-, hl⟩
          · rw [hdf] at hd; cases hd
          · rw [hlk] at hl
            simp only [Option.some.injEq, FSTree.file.injEq] at hl
            obtain ⟨s₀, d₀, p₀⟩ := e
            simp only at hsegs hdf hl
            rw [hsegs, hdf, hl]
      have hne : (create_backup vol).filter
          (fun e => !e.isDirEntry && e.segs == f :: rest) ≠ [] :=
        List.ne_nil_of_mem ((hfiltiff _ _).mpr ⟨hmem₀, rfl, rfl⟩)
      unfold extractedFileAt
      rw [getLast?_all_eq hne hall]
      rfl
    | none =>
      have hempty : (create_backup vol).filter
          (fun e => !e.isDirEntry && e.segs == p) = [] := by
        rw [List.filter_eq_nil_iff]
        intro e hmem hpred
        obtain ⟨-, hdf, hsegs⟩ := (hfiltiff _ e).mp (List.mem_filter.mpr ⟨hmem, hpred⟩)
        obtain ⟨f', t', hm', hcase⟩ := (mem_create_backup hwf).mp hmem
        rcases hcase with h1 | ⟨rest', hne', hsegs', hdisj'⟩
        · rw [h1] at hdf
          simp at hdf
        · rcases hdisj' with ⟨hd, -, -⟩ | ⟨-, hl⟩
          · rw [hdf] at hd; cases hd
          · have hcontra : origFileAt vol p = some e.payload := by
              unfold origFileAt
              rw [← hsegs, hsegs']
              simp only [List.singleton_append]
              rw [backupLookup_eq_of_mem hwf hm' rest', hl]
            rw [horig] at hcontra
            cases hcontra
      unfold extractedFileAt
      rw [hempty]
      rfl
  · cases horig : origDirAt vol p with
    | false =>
      rw [Bool.eq_false_iff]
      intro htrue
      unfold extractedDirAt at htrue
      simp only [Bool.and_eq_true, List.any_eq_true] at htrue
      obtain ⟨hpne', e, hmem, hpredb⟩ := htrue
      have hpne : p ≠ [] := by
        intro h0
        subst h0
        simp at hpne'
      have hpred : (e.isDirEntry = true ∧ p <+: e.segs) ∨
          (e.isDirEntry = false ∧ p <+: e.segs ∧ p ≠ e.segs) := by
        rw [Bool.or_eq_true, Bool.and_eq_true, Bool.and_eq_true, Bool.and_eq_true] at hpredb
        rcases hpredb with ⟨h1, h2⟩ | ⟨⟨h1, h2⟩, h3⟩
        · exact Or.inl ⟨h1, List.isPrefixOf_iff_prefix.mp h2⟩
        · refine Or.inr ⟨by simpa using h1, List.isPrefixOf_iff_prefix.mp h2, ?_⟩
          simpa using h3
      have hcontra := origDir_of_entry_above hwf hmem hpne hpred
      rw [horig] at hcontra
      cases hcontra
    | true =>
      have hbl : ∃ ds, backupLookup vol p = some (.dir ds) := by
        unfold origDirAt at horig
        cases hb : backupLookup vol p with
        | none => rw [hb] at horig; cases horig
        | some u =>
          cases u with
          | file c => rw [hb] at horig; cases horig
          | dir ds => exact ⟨ds, rfl⟩
      obtain ⟨ds, hbl⟩ := hbl
      obtain ⟨e, hmem, hpred⟩ := exists_entry_above hwf hbl
      have hpne : p ≠ [] := by
        intro h0
        subst h0
        simp [backupLookup] at hbl
      unfold extractedDirAt
      rw [Bool.and_eq_true]
      constructor
      · cases p with
        | nil => exact absurd rfl hpne
        | cons x xs => rfl
      · apply List.any_eq_true.mpr
        refine ⟨e, hmem, ?_⟩
        rw [Bool.or_eq_true, Bool.and_eq_true, Bool.and_eq_true, Bool.and_eq_true]
        rcases hpred with ⟨hd, hpre⟩ | ⟨hd, hpre, hne⟩
        · exact Or.inl ⟨hd, List.isPrefixOf_iff_prefix.mpr hpre⟩
        · refine Or.inr ⟨⟨by simp [hd], List.isPrefixOf_iff_prefix.mpr hpre⟩, ?_⟩
          simpa using hne

/-- C1 witness: the round trip at a concrete mixed volume and the path of its
empty directory. -/
theorem c1_backup_restore_roundtrip_witness :
    wfChildren exVol = true ∧
    (extractedFileAt (create_backup exVol) ["Library", "Empty"] =
       origFileAt exVol ["Library", "Empty"] ∧
     extractedDirAt (create_backup exVol) ["Library", "Empty"] =
       origDirAt exVol ["Library", "Empty"]) :=
  ⟨by decide, c1_backup_restore_roundtrip exVol (by decide) ["Library", "Empty"]⟩

/- ===================== C2: directory-marker invariant ===================== -/

/-- C2 counterexample: in the volume `c2Vol` the directory `Library/A`
contains no files and no non-empty subdirectories (its only entry is the empty
directory `B`), yet the archive produced by `create_backup` holds no
directory-marker entry `"Library/A/"` — the code only writes markers for
directories with no entries at all (source line 196). -/
theorem c2_counterexample_missing_marker :
    noFilesNoNonemptySubdirs (FSTree.dir [("B", FSTree.dir [])]) = true ∧
    backupLookup c2Vol ["Library", "A"] = some (FSTree.dir [("B", FSTree.dir [])]) ∧
    "Library/A/" ∉ (create_backup c2Vol).map ZipEntry.arcname := by
  refine ⟨by decide, rfl, by decide⟩

theorem joinSlash_cons_ne {s : String} {rest : List String} (h : rest ≠ []) :
    joinSlash (s :: rest) = s ++ "/" ++ joinSlash rest := by
  cases rest with
  | nil => exact absurd rfl h
  | cons a l => rfl

theorem joinSlash_append {p q : List String} (hp : p ≠ []) (hq : q ≠ []) :
    joinSlash (p ++ q) = joinSlash p ++ "/" ++ joinSlash q := by
  induction p with
  | nil => exact absurd rfl hp
  | cons s p' ih =>
    cases hp' : p' with
    | nil =>
      subst hp'
      simp only [List.cons_append, List.nil_append]
      rw [joinSlash_cons_ne hq]
      rfl
    | cons b l =>
      rw [← hp']
      have hp'ne : p' ≠ [] := by rw [hp']; simp
      have happ : p' ++ q ≠ [] := by
        intro h0
        rw [List.append_eq_nil] at h0
        exact hp'ne h0.1
      rw [List.cons_append, joinSlash_cons_ne happ, ih hp'ne, joinSlash_cons_ne hp'ne]
      simp [String.append_assoc]

theorem strIsPrefixB_append (a b : String) : strIsPrefixB a (a ++ b) = true := by
  unfold strIsPrefixB
  rw [List.isPrefixOf_iff_prefix, String.data_append]
  exact List.prefix_append _ _

/-- C2 (amended): every directory under a backed-up top-level folder that
contains no entries at all (truly empty) is represented by its own zero-length
directory-marker entry whose archive path is the directory's volume-root-
relative path with forward-slash separators, suffixed with `/`; directories
whose only contents are empty subdirectories receive no marker of their own
(they are preserved through their descendants' entry paths), and the
backed-up top-level folders always receive a marker regardless. -/
theorem c2_truly_empty_dir_marker (vol : List (String × FSTree))
    (hwf : wfChildren vol = true) (p : List String)
    (hp : backupLookup vol p = some (.dir [])) :
    ∃ e ∈ create_backup vol, e.isDirEntry = true ∧ e.payload = "" ∧
      e.segs = p ∧ e.arcname = joinSlash p ++ "/" := by
  obtain ⟨f, t, rest, hp_eq, hm, hlk⟩ := backupLookup_some hp
  subst hp_eq
  cases rest with
  | nil =>
    refine ⟨⟨[f], true, ""⟩,
      (mem_create_backup hwf).mpr ⟨f, t, hm, Or.inl rfl⟩, rfl, rfl, rfl, ?_⟩
    simp [ZipEntry.arcname]
  | cons m r =>
    refine ⟨⟨f :: m :: r, true, ""⟩,
      (mem_create_backup hwf).mpr
        ⟨f, t, hm, Or.inr ⟨m :: r, by simp, rfl, Or.inl ⟨rfl, rfl, hlk⟩⟩⟩,
      rfl, rfl, rfl, ?_⟩
    simp [ZipEntry.arcname]

/-- C2 amended-theorem witness: the empty directory `Settings/Global` of the
concrete volume receives its marker entry. -/
theorem c2_truly_empty_dir_marker_witness :
    wfChildren exVol = true ∧
    backupLookup exVol ["Settings", "Global"] = some (FSTree.dir []) ∧
    ∃ e ∈ create_backup exVol, e.isDirEntry = true ∧ e.payload = "" ∧
      e.segs = ["Settings", "Global"] ∧
      e.arcname = joinSlash ["Settings", "Global"] ++ "/" :=
  ⟨by decide, rfl, c2_truly_empty_dir_marker exVol (by decide) ["Settings", "Global"] rfl⟩

/- ===================== C10: every directory appears as an entry prefix ===================== -/

/-- C10: in every archive produced by `create_backup` from a well-formed
volume, every directory of the backed-up region — including one whose only
contents are empty subdirectories, which gets no marker entry of its own —
has its forward-slash volume-root-relative path (with a trailing slash) as a
prefix of at least one archive entry's name, so extraction recreates every
directory of the original tree. -/
theorem c10_every_dir_prefix (vol : List (String × FSTree))
    (hwf : wfChildren vol = true) (p : List String) (ds : List (String × FSTree))
    (hp : backupLookup vol p = some (.dir ds)) :
    ∃ e ∈ create_backup vol, strIsPrefixB (joinSlash p ++ "/") e.arcname = true := by
  have hpne : p ≠ [] := by
    intro h0
    subst h0
    simp [backupLookup] at hp
  obtain ⟨e, hmem, hpred⟩ := exists_entry_above hwf hp
  refine ⟨e, hmem, ?_⟩
  rcases hpred with ⟨hd, hpre⟩ | ⟨hd, hpre, hne⟩
  · by_cases heq : p = e.segs
    · unfold ZipEntry.arcname
      rw [hd, ← heq]
      simp only [if_true]
      unfold strIsPrefixB
      rw [List.isPrefixOf_iff_prefix]
    · obtain ⟨m, r, hdec⟩ := strict_prefix_decomp hpre heq
      unfold ZipEntry.arcname
      rw [hd, hdec]
      simp only [if_true]
      rw [joinSlash_append hpne (by simp)]
      rw [String.append_assoc (joinSlash p ++ "/") (joinSlash (m :: r)) "/"]
      exact strIsPrefixB_append _ _
  · obtain ⟨m, r, hdec⟩ := strict_prefix_decomp hpre hne
    unfold ZipEntry.arcname
    rw [hd, hdec]
    simp only [if_false, Bool.false_eq_true, String.append_empty]
    rw [joinSlash_append hpne (by simp)]
    exact strIsPrefixB_append _ _

/-- C10 witness: the directory `Library/A` of the counterexample volume —
which has no marker entry of its own — still appears as a prefix of the
`Library/A/B/` marker. -/
theorem c10_every_dir_prefix_witness :
    wfChildren c2Vol = true ∧
    backupLookup c2Vol ["Library", "A"] = some (FSTree.dir [("B", FSTree.dir [])]) ∧
    ∃ e ∈ create_backup c2Vol,
      strIsPrefixB (joinSlash ["Library", "A"] ++ "/") e.arcname = true :=
  ⟨by decide, rfl,
    c10_every_dir_prefix c2Vol (by decide) ["Library", "A"] [("B", FSTree.dir [])] rfl⟩

/- ===================== Helper lemmas: the installer ===================== -/

theorem staleName_self (fw : String) : staleName fw fw = false := by
  simp [staleName]

theorem copyToRoot_spec (root : List (String × FSTree)) (fw content : String)
    (hnofw : ∀ t, (fw, t) ∈ root → t.isDir = false) :
    ∃ root₁, copyToRoot root fw content = some root₁ ∧
      (∀ nm t, (nm, t) ∈ root₁ ↔
        (((nm, t) ∈ root ∧ nm ≠ fw) ∨ (nm = fw ∧ t = FSTree.file content))) ∧
      ((root.map Prod.fst).Nodup → (root₁.map Prod.fst).Nodup) ∧
      (∀ delOk : String → Bool,
        (root₁.filter (fun c => staleName fw c.1 && delOk c.1)).length =
        (root.filter (fun c => staleName fw c.1 && delOk c.1)).length) := by
  cases hfind : root.find? (fun c => c.1 == fw) with
  | none =>
    refine ⟨root ++ [(fw, FSTree.file content)], by simp [copyToRoot, hfind], ?_, ?_, ?_⟩
    · intro nm t
      rw [List.mem_append]
      constructor
      · rintro (h | h)
        · refine Or.inl ⟨h, ?_⟩
          intro he
          subst he
          exact (List.find?_eq_none.mp hfind _ h) (by simp)
        · simp only [List.mem_singleton, Prod.mk.injEq] at h
          exact Or.inr h
      · rintro (⟨h, -⟩ | ⟨h1, h2⟩)
        · exact Or.inl h
        · subst h1; subst h2; exact Or.inr (by simp)
    · intro hnd
      rw [List.map_append]
      have hnotin : fw ∉ root.map Prod.fst := by
        intro hm
        obtain ⟨⟨k, v⟩, hkv, he⟩ := List.mem_map.mp hm
        have he' : k = fw := he
        exact (List.find?_eq_none.mp hfind _ hkv) (by simp [he'])
      simp [List.nodup_append, hnd, hnotin]
    · intro delOk
      rw [List.filter_append]
      have hsing : ([((fw : String), FSTree.file content)].filter
          (fun c => staleName fw c.1 && delOk c.1)) = [] := by
        simp [staleName]
      rw [hsing, List.append_nil]
  | some c₀ =>
    obtain ⟨k₀, t₀⟩ := c₀
    obtain ⟨hmem₀, hkey₀⟩ := find?_key_eq hfind
    have hk : k₀ = fw := hkey₀
    subst hk
    cases t₀ with
    | dir ds =>
      have := hnofw _ hmem₀
      simp [FSTree.isDir] at this
    | file c =>
      refine ⟨root.map (fun c => if c.1 == k₀ then (k₀, FSTree.file content) else c),
        by simp [copyToRoot, hfind], ?_, ?_, ?_⟩
      · intro nm t
        rw [List.mem_map]
        constructor
        · rintro ⟨⟨k, v⟩, hkv, he⟩
          by_cases hkfw : k = k₀
          · subst hkfw
            simp only [beq_self_eq_true, if_true] at he
            obtain ⟨h1, h2⟩ := Prod.mk.injEq .. ▸ he
            exact Or.inr ⟨h1.symm, h2.symm⟩
          · have hg : (if ((k, v).1 == k₀) then (k₀, FSTree.file content) else (k, v)) = (k, v) := by
              simp [hkfw]
            rw [hg] at he
            obtain ⟨h1, h2⟩ := Prod.mk.injEq .. ▸ he
            subst h1; subst h2
            exact Or.inl ⟨hkv, hkfw⟩
        · rintro (⟨hmem, hne⟩ | ⟨h1, h2⟩)
          · exact ⟨(nm, t), hmem, by simp [hne]⟩
          · subst h1; subst h2
            exact ⟨(nm, FSTree.file c), hmem₀, by simp⟩
      · intro hnd
        have hkeys : (root.map (fun c => if c.1 == k₀ then (k₀, FSTree.file content) else c)).map
            Prod.fst = root.map Prod.fst := by
          rw [List.map_map]
          apply List.map_congr_left
          intro a ha
          by_cases h : a.1 = k₀ <;> simp [h]
        rw [hkeys]
        exact hnd
      · intro delOk
        rw [List.filter_map, List.length_map]
        congr 1
        apply List.filter_congr
        intro a ha
        by_cases h : a.1 = k₀
        · simp [Function.comp, h, staleName_self]
        · simp [Function.comp, h]

theorem install_firmware_spec (root : List (String × FSTree)) (fw content : String)
    (delOk : String → Bool) (hnd : (root.map Prod.fst).Nodup)
    (hnofw : ∀ t, (fw, t) ∈ root → t.isDir = false) :
    ∃ fs' n, install_firmware root fw content delOk = some (fs', n) ∧
      n = (root.filter (fun c => staleName fw c.1 && delOk c.1)).length ∧
      (∀ nm t, (nm, t) ∈ fs' ↔
        (((nm, t) ∈ root ∧ nm ≠ fw ∧ (staleName fw nm && delOk nm) = false) ∨
         (nm = fw ∧ t = FSTree.file content))) ∧
      (fs'.map Prod.fst).Nodup ∧ (fw, FSTree.file content) ∈ fs' := by
  obtain ⟨root₁, hcopy, hmem₁, hnd₁, hcount⟩ := copyToRoot_spec root fw content hnofw
  refine ⟨root₁.filter (fun c => !(staleName fw c.1 && delOk c.1)),
          (root₁.filter (fun c => staleName fw c.1 && delOk c.1)).length, ?_, ?_, ?_, ?_, ?_⟩
  · unfold install_firmware
    rw [hcopy]
  · exact hcount delOk
  · intro nm t
    rw [List.mem_filter]
    constructor
    · rintro ⟨hm, hq⟩
      rcases (hmem₁ nm t).mp hm with ⟨hmr, hne⟩ | hfw
      · exact Or.inl ⟨hmr, hne, by rwa [Bool.not_eq_true'] at hq⟩
      · exact Or.inr hfw
    · rintro (⟨hmr, hne, hst⟩ | ⟨h1, h2⟩)
      · exact ⟨(hmem₁ nm t).mpr (Or.inl ⟨hmr, hne⟩), by simp [hst]⟩
      · refine ⟨(hmem₁ nm t).mpr (Or.inr ⟨h1, h2⟩), ?_⟩
        rw [h1]
        simp [staleName_self]
  · exact ((List.filter_sublist root₁).map Prod.fst).nodup (hnd₁ hnd)
  · rw [List.mem_filter]
    exact ⟨(hmem₁ fw _).mpr (Or.inr ⟨rfl, rfl⟩), by simp [staleName_self]⟩

theorem nodup_all_eq_singleton {α : Type} {l : List α} {a : α} (hnd : l.Nodup)
    (hall : ∀ x ∈ l, x = a) (hmem : a ∈ l) : l = [a] := by
  cases l with
  | nil => cases hmem
  | cons x rest =>
    have hx : x = a := hall x (List.mem_cons_self _ _)
    subst hx
    cases rest with
    | nil => rfl
    | cons y ys =>
      have hy : y = x := hall y (by simp)
      subst hy
      simp [List.nodup_cons] at hnd

/- ===================== C6: idempotent installation ===================== -/

/-- C6: installing the same firmware filename twice in succession (with stale
deletions succeeding) leaves exactly one entry matching `a3d_os_*.bin` at the
volume root — the just-installed one — and the second installation's
stale-file cleanup removes zero files, because the destination filename
equals the current filename and is excluded from cleanup. -/
theorem c6_install_idempotent (root : List (String × FSTree)) (fw content : String)
    (hnd : (root.map Prod.fst).Nodup) (hpat : fwNamePattern fw = true)
    (hnofw : ∀ t, (fw, t) ∈ root → FSTree.isDir t = false) :
    ∃ fs₁ n₁ fs₂, install_firmware root fw content (fun _ => true) = some (fs₁, n₁) ∧
      install_firmware fs₁ fw content (fun _ => true) = some (fs₂, 0) ∧
      fs₂.filter (fun c => fwNamePattern c.1) = [(fw, FSTree.file content)] := by
  obtain ⟨fs₁, n₁, heq₁, hn₁, hmem₁, hnd₁, hfw₁⟩ :=
    install_firmware_spec root fw content (fun _ => true) hnd hnofw
  have hnofw₁ : ∀ t, (fw, t) ∈ fs₁ → FSTree.isDir t = false := by
    intro t ht
    rcases (hmem₁ fw t).mp ht with ⟨-, hne, -⟩ | ⟨-, h2⟩
    · exact absurd rfl hne
    · rw [h2]; rfl
  obtain ⟨fs₂, n₂, heq₂, hn₂, hmem₂, hnd₂, hfw₂⟩ :=
    install_firmware_spec fs₁ fw content (fun _ => true) hnd₁ hnofw₁
  have hn₂0 : n₂ = 0 := by
    rw [hn₂, List.length_eq_zero, List.filter_eq_nil_iff]
    rintro ⟨k, v⟩ hc hq
    have hstc : staleName fw k = true := by simpa using hq
    rcases (hmem₁ k v).mp hc with ⟨-, -, hfalse⟩ | ⟨h1, -⟩
    · rw [hstc] at hfalse
      simp at hfalse
    · rw [h1, staleName_self] at hstc
      cases hstc
  refine ⟨fs₁, n₁, fs₂, heq₁, by rw [← hn₂0]; exact heq₂, ?_⟩
  apply nodup_all_eq_singleton
  · exact List.Nodup.filter _ (List.Nodup.of_map _ hnd₂)
  · rintro ⟨k, v⟩ hx
    obtain ⟨hxmem, hxq⟩ := List.mem_filter.mp hx
    have hq : fwNamePattern k = true := by simpa using hxq
    rcases (hmem₂ k v).mp hxmem with ⟨hmemfs₁, hne, hfalse⟩ | ⟨h1, h2⟩
    · exfalso
      have hst : staleName fw k = true := by
        show (pyStartswith k "a3d_os_" && pyEndswith k ".bin" && !(k == fw)) = true
        have hq' : (pyStartswith k "a3d_os_" && pyEndswith k ".bin") = true := hq
        rw [Bool.and_eq_true] at hq'
        simp [hq'.1, hq'.2, hne]
      rw [hst] at hfalse
      simp at hfalse
    · rw [h1, h2]
  · rw [List.mem_filter]
    exact ⟨hfw₂, hpat⟩

/-- C6 witness: installing `a3d_os_102.bin` twice on a root holding two stale
firmware images. -/
theorem c6_install_idempotent_witness :
    (exRoot.map Prod.fst).Nodup ∧ fwNamePattern "a3d_os_102.bin" = true ∧
    (∃ fs₁ n₁ fs₂,
      install_firmware exRoot "a3d_os_102.bin" "FW" (fun _ => true) = some (fs₁, n₁) ∧
      install_firmware fs₁ "a3d_os_102.bin" "FW" (fun _ => true) = some (fs₂, 0) ∧
      fs₂.filter (fun c => fwNamePattern c.1) = [("a3d_os_102.bin", FSTree.file "FW")]) :=
  ⟨by decide, by decide,
    c6_install_idempotent exRoot "a3d_os_102.bin" "FW" (by decide) (by decide)
      (by
        intro t ht
        rcases List.mem_cons.mp ht with h | h
        · have h' : ("a3d_os_102.bin" : String) = "a3d_os_100.bin" := congrArg Prod.fst h
          exact absurd h' (by decide)
        · rcases List.mem_cons.mp h with h1 | h1
          · have h' : ("a3d_os_102.bin" : String) = "a3d_os_101.bin" := congrArg Prod.fst h1
            exact absurd h' (by decide)
          · cases h1)⟩

/- ===================== C7: stale-firmware cleanup ===================== -/

/-- C7: the cleanup of `install_firmware` acts on the top level of the volume
root only — each surviving entry keeps its entire subtree untouched — and
deletes exactly those entries whose name matches `a3d_os_*.bin`, differs from
the just-installed filename, and whose deletion the host allows (an entry
whose deletion fails is kept: the failure is swallowed, and the install still
returns instead of aborting), reporting as its removed-count the number of
successfully deleted stale entries; on the claim's concrete example (stale
`a3d_os_100.bin` and `a3d_os_101.bin`, installing `a3d_os_102.bin`) it
removes the two stale files, leaves only the new one, and reports 2. -/
theorem c7_stale_cleanup :
    (∀ (root : List (String × FSTree)) (fw content : String) (delOk : String → Bool),
      (root.map Prod.fst).Nodup →
      (∀ t, (fw, t) ∈ root → FSTree.isDir t = false) →
      ∃ fs' n, install_firmware root fw content delOk = some (fs', n) ∧
        n = (root.filter (fun c => staleName fw c.1 && delOk c.1)).length ∧
        (∀ nm t, (nm, t) ∈ fs' ↔
          (((nm, t) ∈ root ∧ nm ≠ fw ∧ (staleName fw nm && delOk nm) = false) ∨
           (nm = fw ∧ t = FSTree.file content)))) ∧
    install_firmware exRoot "a3d_os_102.bin" "FW" (fun _ => true) =
      some ([("a3d_os_102.bin", FSTree.file "FW")], 2) := by
  constructor
  · intro root fw content delOk hnd hnofw
    obtain ⟨fs', n, h1, h2, h3, -, -⟩ := install_firmware_spec root fw content delOk hnd hnofw
    exact ⟨fs', n, h1, h2, h3⟩
  · rfl

/-- C7 witness: the general statement applied to the concrete stale-file
volume, with a deletion oracle that refuses to delete `a3d_os_100.bin`
(the locked file stays, the install still returns, and the count is 1). -/
theorem c7_stale_cleanup_witness :
    (exRoot.map Prod.fst).Nodup ∧
    (∃ fs' n, install_firmware exRoot "a3d_os_102.bin" "FW"
        (fun nm => !(nm == "a3d_os_100.bin")) = some (fs', n) ∧
      n = (exRoot.filter (fun c => staleName "a3d_os_102.bin" c.1 &&
            (fun nm => !(nm == "a3d_os_100.bin")) c.1)).length ∧
      (∀ nm t, (nm, t) ∈ fs' ↔
        (((nm, t) ∈ exRoot ∧ nm ≠ "a3d_os_102.bin" ∧
          (staleName "a3d_os_102.bin" nm &&
            (fun nm => !(nm == "a3d_os_100.bin")) nm) = false) ∨
         (nm = "a3d_os_102.bin" ∧ t = FSTree.file "FW")))) :=
  ⟨by decide,
    c7_stale_cleanup.1 exRoot "a3d_os_102.bin" "FW" (fun nm => !(nm == "a3d_os_100.bin"))
      (by decide)
      (by
        intro t ht
        rcases List.mem_cons.mp ht with h | h
        · have h' : ("a3d_os_102.bin" : String) = "a3d_os_100.bin" := congrArg Prod.fst h
          exact absurd h' (by decide)
        · rcases List.mem_cons.mp h with h1 | h1
          · have h' : ("a3d_os_102.bin" : String) = "a3d_os_101.bin" := congrArg Prod.fst h1
            exact absurd h' (by decide)
          · cases h1)⟩
